import Mathlib

/-!
Verification development for the vault-jwt crate.

Shallow embedding conventions:
* Rust `String` / `&str` values are modelled as `List Char` (Rust strings are
  sequences of unicode scalar values; all operations the crate performs on them
  are character-wise).
* `std::time::Duration` is modelled as a `Nat` counting nanoseconds.  A valid
  `Duration` holds at most `u64::MAX` seconds plus `999 999 999` nanoseconds,
  i.e. at most `durationMax` nanoseconds.  `Duration * u32` panics on overflow
  (std documentation), so `Lease::new`, which computes `dur * 2`, is modelled
  as returning `Option`, `none` standing for the panic.
* `std::time::SystemTime` instants are modelled as `Nat` nanoseconds since an
  arbitrary epoch; `SystemTime::now()` becomes an explicit `now` parameter.
* `serde_json::Value` is abstracted to the constructors this development
  needs (`Value`); none of the verified code inspects the value.
-/

deriving instance DecidableEq for Except

namespace VaultJwt

/-- Largest number of nanoseconds representable by a `std::time::Duration`
(`u64::MAX` seconds plus `999_999_999` nanoseconds). -/
def durationMax : Nat := 18446744073709551615 * 1000000000 + 999999999

/-- Modulus of Rust's `u64` type. -/
def u64Mod : Nat := 18446744073709551616

/-- Nanoseconds of `Duration::from_secs s`. -/
def fromSecs (s : Nat) : Nat := s * 1000000000

/-- Abstraction of `serde_json::Value`: the lease/validity code never inspects
the value, so only the constructors used by concrete witnesses are kept. -/
inductive Value where
  | null
  | str (s : List Char)
deriving DecidableEq

/-- Embedding of `Lease` (src/lease.rs): a start instant, a total duration and
a renewal delay, all in nanoseconds. -/
structure Lease where
  time : Nat
  lease_duration : Nat
  renew_delay : Nat
deriving DecidableEq

/-- Embedding of `Lease::new` (src/lease.rs:14-20): `renew_delay = dur * 2 / 3`
computed in `Duration` arithmetic, i.e. exact to the nanosecond (floor).
`dur * 2` panics when it exceeds `Duration`'s range; the panic is modelled by
`none`.  The start instant `SystemTime::now()` is the explicit `now` argument. -/
def Lease.new (now dur : Nat) : Option Lease :=
  if dur * 2 ≤ durationMax then some ⟨now, dur, dur * 2 / 3⟩ else none

/-- Embedding of `Lease::is_valid` (src/lease.rs:23-26). -/
def Lease.is_valid (l : Lease) (now : Nat) : Bool :=
  l.lease_duration != 0 && decide (now < l.time + l.lease_duration)

/-- Embedding of `Lease::to_renew` (src/lease.rs:29-32). -/
def Lease.to_renew (l : Lease) (now : Nat) : Bool :=
  l.lease_duration != 0 && decide (now > l.time + l.renew_delay)

/-- Embedding of `Auth` (src/auth.rs): a token paired with an optional lease. -/
structure Auth where
  client_token : List Char
  lease : Option Lease
deriving DecidableEq

/-- Embedding of `Auth::new` (src/auth.rs:14-19).  `dur.and_then(|d| Some(Lease::new(d)))`
is `Option.map` of the (possibly panicking) lease constructor. -/
def Auth.new (token : List Char) (dur : Option Nat) (now : Nat) : Option Auth :=
  match dur with
  | none => some ⟨token, none⟩
  | some d => (Lease.new now d).map fun l => ⟨token, some l⟩

/-- Embedding of `Auth::is_valid` (src/auth.rs:22-25).  Rust's `&&` binds
tighter than `||`, so the source expression
`!t.is_empty() && self.lease.is_none() || self.lease.filter(valid).is_some()`
parenthesizes as `(!t.is_empty() && none?) || (valid lease?)`. -/
def Auth.is_valid (a : Auth) (now : Nat) : Bool :=
  (!a.client_token.isEmpty && a.lease.isNone)
    || (match a.lease with
        | some l => l.is_valid now
        | none => false)

/-- Embedding of `Auth::to_renew` (src/auth.rs:28-30). -/
def Auth.to_renew (a : Auth) (now : Nat) : Bool :=
  match a.lease with
  | some l => l.to_renew now
  | none => false

/-- Embedding of `Auth::duration` (src/auth.rs:32-34). -/
def Auth.duration (a : Auth) : Option Nat :=
  a.lease.map fun l => l.lease_duration

/-- Embedding of `Auth::renew_delay` (src/auth.rs:36-38). -/
def Auth.renew_delay (a : Auth) : Option Nat :=
  a.lease.map fun l => l.renew_delay

/-- Embedding of `Secret` (src/secret.rs:8-11). -/
structure Secret where
  value : Value
  lease : Option Lease
deriving DecidableEq

/-- Embedding of `Secret::new` (src/secret.rs:15-20). -/
def Secret.new (v : Value) (dur : Option Nat) (now : Nat) : Option Secret :=
  match dur with
  | none => some ⟨v, none⟩
  | some d => (Lease.new now d).map fun l => ⟨v, some l⟩

/-- Embedding of `Secret::is_valid` (src/secret.rs:23-25):
`self.lease.is_none() || self.lease.filter(valid).is_some()`. -/
def Secret.is_valid (s : Secret) (now : Nat) : Bool :=
  s.lease.isNone
    || (match s.lease with
        | some l => l.is_valid now
        | none => false)

/-- Embedding of `Secret::has_lease` (src/secret.rs:27-33). -/
def Secret.has_lease (s : Secret) : Bool :=
  match s.lease with
  | some l => l.lease_duration != 0
  | none => false

/-- Embedding of `Secret::to_renew` (src/secret.rs:36-38). -/
def Secret.to_renew (s : Secret) (now : Nat) : Bool :=
  match s.lease with
  | some l => l.to_renew now
  | none => false

/-- Nom error kinds reachable in the embedded combinator parser
(`nom::error::ErrorKind` subset). -/
inductive NomKind where
  | Alpha
  | Many1
  | Tag
deriving DecidableEq

/-- Embedding of the core-relevant subset of `Error` (src/error.rs).  The
transport-layer variants (`VaultError`, `TokenError`, ...) carry foreign
payloads and are out of scope; `UnknowBackend` keeps the source spelling. -/
inductive Error where
  | NotLogged
  | UnknowBackend (s : List Char)
  | NoBackend
  | NoArgs (s : List Char)
  | NoPath (s : List Char)
  | ExtraData (s : List Char)
  | Nom (s : List Char) (k : NomKind)
  | Incomplete
deriving DecidableEq

/-- Lookup in the client's role-to-auth map.  `HashMap<String, Auth>` with its
`get` is modelled as an association list with first-match lookup. -/
def lookupAuth : List (List Char × Auth) → List Char → Option Auth
  | [], _ => none
  | (r, a) :: t, role => if r = role then some a else lookupAuth t role

/-- Embedding of the `VaultClient` state consulted by `get_secret` and
`is_logged` (src/client.rs:17-24): the base url and the auth cache.  The HTTP
client handle, jwt and login path play no part in the verified claims. -/
structure VaultClient where
  url : List Char
  auth : List (List Char × Auth)

/-- Embedding of `VaultClient::is_logged` (src/client.rs:43-48). -/
def VaultClient.is_logged (c : VaultClient) (role : List Char) (now : Nat) : Bool :=
  match lookupAuth c.auth role with
  | some a => a.is_valid now && !a.to_renew now
  | none => false

/-- The observable part of the HTTP request `get_secret` builds: target uri,
method and the `X-Vault-Token` header value (src/client.rs:154-160). -/
structure VaultRequest where
  uri : List Char
  method : List Char
  token : List Char
deriving DecidableEq

/-- Embedding of the request-issuing decision of `VaultClient::get_secret`
(src/client.rs:142-160, identical in `get_secret_async`): if the role has a
cached `Auth` — whatever its state — the request is built with that entry's
token; otherwise the call fails with `NotLogged`.  The request body (built
from the kwargs) and the transport call itself are outside the model. -/
def VaultClient.get_secret (c : VaultClient) (role method path : List Char) :
    Except Error VaultRequest :=
  match lookupAuth c.auth role with
  | some a => .ok ⟨c.url ++ '/' :: path, method, a.client_token⟩
  | none => .error .NotLogged

/-- Embedding of the response-wrapping step of `VaultClient::get_secret`
(src/client.rs:168-179): the remote `lease_duration` field (absent ↦ `none`,
non-`u64` ↦ `0`) is filtered for zero, scaled by `o * 2 / 3` in `u64`
arithmetic (wrapping, release profile) and passed to `Secret::new` as a
duration in whole seconds. -/
def get_secret_wrap (data : Value) (lease_duration : Option Nat) (now : Nat) :
    Option Secret :=
  let dur := (Option.filter (fun o => o != 0) lease_duration).map
    fun o => fromSecs (o * 2 % u64Mod / 3)
  Secret.new data dur now

/-- Split at the first occurrence of `c`: `str::find` followed by the two
slices around the found position.  `none` when `c` does not occur. -/
def splitFirst (c : Char) : List Char → Option (List Char × List Char)
  | [] => none
  | x :: xs =>
    if x = c then some ([], xs)
    else (splitFirst c xs).map fun p => (x :: p.1, p.2)

/-- Split at the last occurrence of `c`: `str::rfind` followed by the two
slices around the found position.  `none` when `c` does not occur. -/
def splitLast (c : Char) (s : List Char) : Option (List Char × List Char) :=
  (splitFirst c s.reverse).map fun p => (p.2.reverse, p.1.reverse)

/-- Embedding of `str::split(c)`: the (always non-empty) list of the
separator-free pieces, `[[]]` on the empty string. -/
def splitOn (c : Char) : List Char → List (List Char)
  | [] => [[]]
  | x :: xs =>
    if x = c then [] :: splitOn c xs
    else
      match splitOn c xs with
      | h :: t => (x :: h) :: t
      | [] => [[x]]

/-- Embedding of `[&str]::join(sep)` for a one-character separator. -/
def joinSep (c : Char) : List (List Char) → List Char
  | [] => []
  | [p] => p
  | p :: ps => p ++ c :: joinSep c ps

/-- Embedding of `SecretPath` (src/secret.rs:70-80), generic over the
caller-supplied backend type.  The field the simple parser binds as
`path_anchor` is the field `secret.rs` declares as `full_path` (the verbatim
tail holding path and optional anchor). -/
structure SecretPath (β : Type) where
  backend : β
  args : List (List Char)
  kwargs : Option (List (List Char × List Char))
  full_path : List Char
  path : List Char
  anchor : Option (List Char)
deriving DecidableEq

/-- Embedding of `impl Display for SecretPath` (src/secret.rs:83-97): backend,
colon, positional args joined by commas, one `,k=v` per keyword argument,
colon, verbatim tail.  `showB` stands for the backend type's own `Display`. -/
def SecretPath.display {β : Type} (showB : β → List Char) (sp : SecretPath β) :
    List Char :=
  showB sp.backend ++ ':' :: joinSep ',' sp.args
    ++ (match sp.kwargs with
        | some ks => (ks.map fun kv => ',' :: (kv.1 ++ '=' :: kv.2)).flatten
        | none => [])
    ++ ':' :: sp.full_path

/-- Partition of the comma-separated argument pieces done by the simple parser
(src/parser_simple.rs:106-114): a piece containing `=` is split at the first
`=` into a keyword argument, any other piece is positional; both orders are
preserved. -/
def splitPieces : List (List Char) → List (List Char) × List (List Char × List Char)
  | [] => ([], [])
  | p :: ps =>
    let r := splitPieces ps
    match splitFirst '=' p with
    | some kv => (r.1, kv :: r.2)
    | none => (p :: r.1, r.2)

/-- Embedding of the scanner strategy, `TryFrom<&str> for SecretPath`
(src/parser_simple.rs:87-128).  The 3-state `SecretPathIterator` is inlined:
its first two `next()` calls each take the slice before the next `:` (yielding
`None` when the remainder is empty or holds no `:`), the third yields the
non-empty remainder.  `tryB` stands for the backend type's `TryFrom<&str>`;
per the in-crate backend implementations its failure maps to `UnknowBackend`
applied to the offending slice. -/
def scanTryFrom {β : Type} (tryB : List Char → Option β) (s : List Char) :
    Except Error (SecretPath β) :=
  match splitFirst ':' s with
  | none => .error .NoBackend
  | some (backend_str, r₁) =>
    match tryB backend_str with
    | none => .error (.UnknowBackend backend_str)
    | some backend =>
      match splitFirst ':' r₁ with
      | none => .error (.NoArgs s)
      | some (args_, path_anchor) =>
        if path_anchor = [] then .error (.NoPath args_)
        else
          .ok ⟨backend, (splitPieces (splitOn ',' args_)).1,
            (if (splitPieces (splitOn ',' args_)).2 = [] then none
             else some (splitPieces (splitOn ',' args_)).2),
            path_anchor,
            (match splitLast '#' path_anchor with
             | some pa => pa.1
             | none => path_anchor),
            (match splitLast '#' path_anchor with
             | some pa => some pa.2
             | none => none)⟩

/-- Embedding of the `Arg` enum of the combinator strategy (src/parser.rs:53-57). -/
inductive Arg where
  | arg (a : List Char)
  | kwarg (k v : List Char)
deriving DecidableEq

/-- The source text an `Arg` was parsed from (`impl Display for Arg`,
src/parser.rs:59-66). -/
def Arg.text : Arg → List Char
  | .arg a => a
  | .kwarg k v => k ++ '=' :: v

/-- Outcome of a nom combinator on `&str` input: success with value and
unconsumed rest, recoverable error (`Err::Error`) or failure (`Err::Failure`). -/
inductive NomOut (α : Type) where
  | ok (a : α) (rest : List Char)
  | err (e : Error)
  | fail (e : Error)
deriving DecidableEq

/-- Embedding of `literal` (src/parser.rs:108-110),
`recognize(many1(is_not(":,=")))`: the maximal non-empty prefix free of the
three delimiters; on an empty match `many1` reports `ErrorKind::Many1` at the
current input. -/
def nomLiteral (s : List Char) : NomOut (List Char) :=
  let p := s.takeWhile fun c => !(c == ':' || c == ',' || c == '=')
  if p = [] then .err (.Nom s .Many1)
  else .ok p (s.dropWhile fun c => !(c == ':' || c == ',' || c == '='))

/-- Embedding of `kwarg` (src/parser.rs:126-128),
`separated_pair(literal, tag("="), literal)`. -/
def nomKwarg (s : List Char) : NomOut Arg :=
  match nomLiteral s with
  | .ok k r₁ =>
    (match r₁ with
     | '=' :: r₂ =>
       (match nomLiteral r₂ with
        | .ok v r₃ => .ok (.kwarg k v) r₃
        | .err e => .err e
        | .fail e => .fail e)
     | _ => .err (.Nom r₁ .Tag))
  | .err e => .err e
  | .fail e => .fail e

/-- Embedding of `alt((kwarg, arg))` (src/parser.rs:138): on a recoverable
`kwarg` error fall back to `arg`; `alt`'s combined error is the last branch's
error (the default `ParseError::or`). -/
def nomArgElem (s : List Char) : NomOut Arg :=
  match nomKwarg s with
  | .ok a r => .ok a r
  | .fail e => .fail e
  | .err _ =>
    match nomLiteral s with
    | .ok a r => .ok (.arg a) r
    | .err e => .err e
    | .fail e => .fail e

/-- Loop of `separated_list1(tag(","), alt((kwarg, arg)))` (src/parser.rs:137-139)
after its first element: keep consuming `,element`; stop (without consuming
the comma) as soon as the comma or the element fails.  The `fuel` argument is
only a termination device: each iteration consumes at least two characters
while fuel decreases by one, so `fuel = s.length` never runs out before the
input does (`argsLoopF_congr` below makes the fuel-independence precise). -/
def argsLoopF : Nat → List Arg → List Char → List Arg × List Char
  | 0, acc, s => (acc, s)
  | f + 1, acc, s =>
    match s with
    | ',' :: s₁ =>
      (match nomArgElem s₁ with
       | .ok a s₂ => argsLoopF f (acc ++ [a]) s₂
       | _ => (acc, ',' :: s₁))
    | _ => (acc, s)

/-- The separator loop instantiated with sufficient fuel. -/
def argsLoop (acc : List Arg) (s : List Char) : List Arg × List Char :=
  argsLoopF s.length acc s

/-- The `path` / `opt(preceded(tag("#"), rest))` suffix of `secret_path`
(src/parser.rs:171-172) applied after the second `:`: `path` is
`recognize(many1(is_not("#")))` — the maximal non-empty `#`-free prefix —
and the optional anchor is everything after the `#`, `rest` consuming the
whole remaining input. -/
def nomTail {β : Type} (bk : β) (args : List Arg) (r₄ : List Char) :
    NomOut (β × List Arg × List Char × Option (List Char)) :=
  if r₄.takeWhile (fun c => !(c == '#')) = [] then .err (.Nom r₄ .Many1)
  else
    match r₄.dropWhile (fun c => !(c == '#')) with
    | '#' :: r₆ => .ok (bk, args, r₄.takeWhile (fun c => !(c == '#')), some r₆) []
    | r₅ => .ok (bk, args, r₄.takeWhile (fun c => !(c == '#')), none) r₅

/-- Embedding of `secret_path` (src/parser.rs:163-174):
`tuple((terminated(backend, alt((tag(":"), no_args))),
terminated(arg1, alt((tag(":"), no_path))), path, opt(preceded(tag("#"), rest))))`.
`backend` is `map_res(alpha1, T::try_from)` — `alpha1` takes the maximal
non-empty ASCII-alphabetic prefix; the tail after the second `:` is handled by
`nomTail`.  `no_args` / `no_path` raise `Err::Failure`, which aborts the
surrounding `alt`. -/
def nomSecretPath {β : Type} (tryB : List Char → Option β) (s : List Char) :
    NomOut (β × List Arg × List Char × Option (List Char)) :=
  if s.takeWhile Char.isAlpha = [] then .err (.Nom s .Alpha)
  else
    match tryB (s.takeWhile Char.isAlpha) with
    | none => .err (.UnknowBackend (s.takeWhile Char.isAlpha))
    | some bk =>
      match s.dropWhile Char.isAlpha with
      | ':' :: r₁ =>
        (match nomArgElem r₁ with
         | .ok a₀ r₂ =>
           (match argsLoop [a₀] r₂ with
            | (args, ':' :: r₄) => nomTail bk args r₄
            | (_, r₃) => .fail (.NoPath r₃))
         | .err e => .err e
         | .fail e => .fail e)
      | r₀ => .fail (.NoArgs r₀)

/-- Embedding of `splitargs` (src/parser.rs:142-159): stable partition of the
parsed `Arg` list into positional and keyword arguments, empty keyword list
collapsing to `none`. -/
def splitargsAux : List Arg → List (List Char) × List (List Char × List Char)
  | [] => ([], [])
  | .arg a :: t =>
    let r := splitargsAux t
    (a :: r.1, r.2)
  | .kwarg k v :: t =>
    let r := splitargsAux t
    (r.1, (k, v) :: r.2)

/-- Result the combinator strategy's `TryFrom` constructs (src/parser.rs:89-95).
The source constructs `SecretPath` without a `full_path` field, so the nom
result is mirrored as its own record carrying exactly the constructed fields. -/
structure NomResult (β : Type) where
  backend : β
  args : List (List Char)
  kwargs : Option (List (List Char × List Char))
  path : List Char
  anchor : Option (List Char)
deriving DecidableEq

/-- Embedding of the combinator strategy's `TryFrom<&str> for SecretPath`
(src/parser.rs:80-97): empty input is `NoBackend`, leftover input after
`secret_path` is `ExtraData`, and the parsed argument list is split by
`splitargs`. -/
def nomTryFrom {β : Type} (tryB : List Char → Option β) (s : List Char) :
    Except Error (NomResult β) :=
  if s = [] then .error .NoBackend
  else
    match nomSecretPath tryB s with
    | .ok (bk, args, p, anc) rest =>
      if rest = [] then
        let ak := splitargsAux args
        .ok ⟨bk, ak.1, (if ak.2 = [] then none else some ak.2), p, anc⟩
      else .error (.ExtraData rest)
    | .err e => .error e
    | .fail e => .error e

/-- The backend type the crate's own tests instantiate both parsers with
(src/parser_simple.rs:136-163): `vault` and `const`, `TryFrom` failing with
`UnknowBackend` on anything else, `Display` reproducing the lowercase name. -/
inductive Backend where
  | vault
  | const
deriving DecidableEq

/-- Embedding of the test backend's `TryFrom<&str>`. -/
def Backend.try_from (s : List Char) : Option Backend :=
  if s = ['v', 'a', 'u', 'l', 't'] then some .vault
  else if s = ['c', 'o', 'n', 's', 't'] then some .const
  else none

/-- Embedding of the test backend's `Display`. -/
def Backend.display : Backend → List Char
  | .vault => ['v', 'a', 'u', 'l', 't']
  | .const => ['c', 'o', 'n', 's', 't']

/-- Characters excluded from a `literal` of the combinator grammar. -/
def noDelims (l : List Char) : Prop := ∀ c ∈ l, c ≠ ':' ∧ c ≠ ',' ∧ c ≠ '='

/-- Shape invariant of an `Arg` produced by the combinator parser: literals
are non-empty and delimiter-free. -/
def properArg : Arg → Prop
  | .arg a => a ≠ [] ∧ noDelims a
  | .kwarg k v => k ≠ [] ∧ v ≠ [] ∧ noDelims k ∧ noDelims v

/-- The weaker shape needed for the scanner to classify a piece the same way
`splitargs` does: no `=` in a positional piece, none in a keyword key. -/
def properPiece : Arg → Prop
  | .arg a => '=' ∉ a
  | .kwarg k _ => '=' ∉ k

/-- Source text consumed by the comma-separated continuation of an argument
list: one `,` before each further element. -/
def sepText (es : List Arg) : List Char :=
  (es.map fun e => ',' :: e.text).flatten

/-! Theorems for the claims about the lease/credential/secret/client model. -/

/-- C1: the claim says an `Auth` with an empty token is never valid.  The code
violates it: because Rust's `&&` binds tighter than `||`,
`Auth::is_valid` on an empty token with a present, still-valid lease returns
`true`.  This theorem evaluates the embedded code at that failing input: the
`Auth` built from the empty token and a 10-second lease, queried 1ns after
construction, is reported valid.  The spec (and the crate's own test name
`empty_token_is_invalid`) state the intended parenthesization
`!empty && (window absent || window valid)`, so this is a code bug. -/
theorem c1_empty_token_with_valid_lease_reported_valid :
    (Auth.new [] (some 10000000000) 0).map (fun a => a.is_valid 1) = some true := by
  decide

/-- C5: a `Lease` constructed with `ttl == 0` is never valid and never up for
renewal, at every instant. -/
theorem c5_zero_ttl_never_valid_never_renew :
    ∀ (t now : Nat) (l : Lease), Lease.new t 0 = some l →
      l.is_valid now = false ∧ l.to_renew now = false := by
  intro t now l h
  simp only [Lease.new, Nat.zero_mul, Nat.zero_le, if_pos, Option.some.injEq] at h
  subst h
  simp [Lease.is_valid, Lease.to_renew]

/-- Witness for `c5_zero_ttl_never_valid_never_renew` at `t = 3`, `now = 7`. -/
theorem c5_zero_ttl_never_valid_never_renew_witness :
    Lease.is_valid ⟨3, 0, 0⟩ 7 = false ∧ Lease.to_renew ⟨3, 0, 0⟩ 7 = false :=
  c5_zero_ttl_never_valid_never_renew 3 7 ⟨3, 0, 0⟩ (by decide)

/-- C6 counterexample: the claim says a `get_secret` response with remote
`lease_duration = 9` seconds is wrapped in a lease of total duration 9s and
renewal threshold 6s.  The code first scales the remote duration by 2/3 and
then lets `Lease::new` apply 2/3 again: the actual lease lasts 6s with a 4s
renewal threshold. -/
theorem c6_wrap_counterexample :
    ((get_secret_wrap .null (some 9) 0).map fun s =>
        s.lease.map fun l => (l.lease_duration, l.renew_delay))
        = some (some (fromSecs 6, fromSecs 4))
      ∧ ((get_secret_wrap .null (some 9) 0).map fun s =>
        s.lease.map fun l => (l.lease_duration, l.renew_delay))
        ≠ some (some (fromSecs 9, fromSecs 6)) := by
  constructor
  · decide
  · decide

/-- C6 amended: for a non-zero remote-reported `lease_duration` (below the
`u64` wrap region), the returned secret's lease has total duration
`lease_duration * 2 / 3` whole seconds — not the remote duration itself — and
its renewal threshold is 2/3 of that (nanosecond floor). -/
theorem c6_wrap_amended :
    ∀ (v : Value) (ld now : Nat), 0 < ld → ld * 2 < u64Mod →
      get_secret_wrap v (some ld) now
        = some ⟨v, some ⟨now, fromSecs (ld * 2 / 3), fromSecs (ld * 2 / 3) * 2 / 3⟩⟩ := by
  intro v ld now h0 h2
  have hx3 : ld * 2 / 3 * 3 ≤ ld * 2 := Nat.div_mul_le_self _ _
  have hbound : fromSecs (ld * 2 / 3) * 2 ≤ durationMax := by
    simp only [fromSecs, durationMax, u64Mod] at *
    omega
  have hne : (ld != 0) = true := by
    simp only [bne_iff_ne, ne_eq]
    omega
  simp [get_secret_wrap, Option.filter, hne, Secret.new, Lease.new,
    Nat.mod_eq_of_lt h2, hbound]

/-- Witness for `c6_wrap_amended` at a 9-second remote lease. -/
theorem c6_wrap_amended_witness :
    get_secret_wrap .null (some 9) 5
      = some ⟨.null, some ⟨5, fromSecs (9 * 2 / 3), fromSecs (9 * 2 / 3) * 2 / 3⟩⟩ :=
  c6_wrap_amended .null 9 5 (by decide) (by decide)

/-- C8 counterexample: the claim says `Lease::new` has no failure mode, but
`Duration * 2` panics when the doubled duration exceeds `Duration`'s range,
so `Lease::new(Duration::MAX)` panics (modelled as `none`). -/
theorem c8_lease_new_counterexample : Lease.new 0 durationMax = none := by
  decide

/-- C8 amended: `Lease::new(ttl)` succeeds for every duration whose double is
still a representable `Duration`, and then `renew_delay = ttl * 2 / 3`
(nanosecond floor) with `renew_delay ≤ lease_duration`. -/
theorem c8_lease_new_amended :
    ∀ (t d : Nat), d * 2 ≤ durationMax →
      Lease.new t d = some ⟨t, d, d * 2 / 3⟩ ∧ d * 2 / 3 ≤ d := by
  intro t d h
  refine ⟨by simp [Lease.new, h], ?_⟩
  calc d * 2 / 3 ≤ d * 3 / 3 := Nat.div_le_div_right (by omega)
    _ = d := Nat.mul_div_cancel d (by omega)

/-- Witness for `c8_lease_new_amended` at `t = 1`, `d = 9`. -/
theorem c8_lease_new_amended_witness :
    Lease.new 1 9 = some ⟨1, 9, 9 * 2 / 3⟩ ∧ 9 * 2 / 3 ≤ 9 :=
  c8_lease_new_amended 1 9 (by decide)

/-- C9 counterexample: the claim says every window-less Credential is valid,
but a Credential with an empty token and no window is invalid (the crate's
own `empty_token_is_invalid` test asserts exactly this). -/
theorem c9_no_window_counterexample : ¬ (Auth.is_valid ⟨[], none⟩ 0 = true) := by
  decide

/-- C9 amended: a Credential with a NON-EMPTY token and no window is always
valid and never needs renewal, and a SecretValue with no window is always
valid and never needs renewal (no emptiness condition on the value). -/
theorem c9_no_window_amended :
    (∀ (tok : List Char) (cnow now : Nat) (a : Auth), tok ≠ [] →
        Auth.new tok none cnow = some a →
        a.is_valid now = true ∧ a.to_renew now = false)
    ∧ (∀ (v : Value) (cnow now : Nat) (s : Secret),
        Secret.new v none cnow = some s →
        s.is_valid now = true ∧ s.to_renew now = false) := by
  constructor
  · intro tok cnow now a htok ha
    simp only [Auth.new, Option.some.injEq] at ha
    subst ha
    cases tok with
    | nil => exact absurd rfl htok
    | cons x xs => simp [Auth.is_valid, Auth.to_renew, List.isEmpty]
  · intro v cnow now s hs
    simp only [Secret.new, Option.some.injEq] at hs
    subst hs
    simp [Secret.is_valid, Secret.to_renew, Option.isNone]

/-- Witness for `c9_no_window_amended` at a one-character token and a string
value, queried at `now = 100`. -/
theorem c9_no_window_amended_witness :
    (Auth.is_valid ⟨['t'], none⟩ 100 = true ∧ Auth.to_renew ⟨['t'], none⟩ 100 = false)
    ∧ (Secret.is_valid ⟨.str ['s'], none⟩ 100 = true
        ∧ Secret.to_renew ⟨.str ['s'], none⟩ 100 = false) :=
  ⟨c9_no_window_amended.1 ['t'] 0 100 ⟨['t'], none⟩ (by decide) (by decide),
   c9_no_window_amended.2 (.str ['s']) 0 100 ⟨.str ['s'], none⟩ (by decide)⟩

/-- C10: `get_secret` never consults the cached credential's validity: when
any `Auth` is cached for the role — its lease may be expired, its token may
even be empty — the request is issued with that entry's token, and
`NotLogged` is returned exactly when no entry is cached at all. -/
theorem c10_get_secret_ignores_validity :
    ∀ (c : VaultClient) (role method path : List Char),
      (∀ a : Auth, lookupAuth c.auth role = some a →
        c.get_secret role method path = .ok ⟨c.url ++ '/' :: path, method, a.client_token⟩)
      ∧ (c.get_secret role method path = .error .NotLogged
          ↔ lookupAuth c.auth role = none) := by
  intro c role method path
  constructor
  · intro a h
    simp [VaultClient.get_secret, h]
  · cases h : lookupAuth c.auth role <;> simp [VaultClient.get_secret, h]

/-- Witness for `c10_get_secret_ignores_validity`: the cached entry has an
empty token and an already-expired 1ns lease (so `is_logged` would be false),
yet `get_secret` issues the request with that empty token. -/
theorem c10_get_secret_ignores_validity_witness :
    VaultClient.get_secret ⟨['u'], [(['r'], ⟨[], some ⟨0, 1, 0⟩⟩)]⟩ ['r'] ['G'] ['p']
      = .ok ⟨['u'] ++ '/' :: ['p'], ['G'], []⟩ :=
  (c10_get_secret_ignores_validity ⟨['u'], [(['r'], ⟨[], some ⟨0, 1, 0⟩⟩)]⟩ ['r'] ['G'] ['p']).1
    ⟨[], some ⟨0, 1, 0⟩⟩ (by decide)

/-! Lemmas about the string-splitting helpers. -/

theorem splitFirst_eq_none_iff {c : Char} {s : List Char} :
    splitFirst c s = none ↔ c ∉ s := by
  induction s with
  | nil => simp [splitFirst]
  | cons x xs ih =>
    by_cases hx : x = c
    · simp [splitFirst, hx]
    · simp only [splitFirst, if_neg hx, Option.map_eq_none', ih, List.mem_cons, not_or]
      exact ⟨fun h => ⟨fun hc => hx hc.symm, h⟩, fun h => h.2⟩

theorem splitFirst_append {c : Char} (A B : List Char) (h : c ∉ A) :
    splitFirst c (A ++ c :: B) = some (A, B) := by
  induction A with
  | nil => simp [splitFirst]
  | cons a A' ih =>
    have ha : a ≠ c := fun hac => h (hac ▸ List.mem_cons_self a A')
    have h' : c ∉ A' := fun hc => h (List.mem_cons_of_mem a hc)
    simp [splitFirst, ha, ih h']

theorem splitFirst_sound {c : Char} {s a b : List Char} :
    splitFirst c s = some (a, b) → s = a ++ c :: b ∧ c ∉ a := by
  induction s generalizing a b with
  | nil => simp [splitFirst]
  | cons x xs ih =>
    intro h
    by_cases hx : x = c
    · rw [splitFirst, if_pos hx] at h
      obtain ⟨ha, hb⟩ := Prod.mk.inj (Option.some.inj h)
      subst ha hb
      simp [hx]
    · rw [splitFirst, if_neg hx] at h
      cases hsp : splitFirst c xs with
      | none => rw [hsp] at h; simp at h
      | some pq =>
        obtain ⟨p, q⟩ := pq
        rw [hsp] at h
        simp only [Option.map_some', Option.some.injEq, Prod.mk.injEq] at h
        obtain ⟨ha, hb⟩ := h
        obtain ⟨hs, hmem⟩ := ih hsp
        subst hb
        constructor
        · rw [← ha, hs]
          simp
        · rw [← ha]
          intro hc
          rcases List.mem_cons.mp hc with h1 | h1
          · exact hx h1.symm
          · exact hmem h1

theorem splitLast_eq_none_iff {c : Char} {s : List Char} :
    splitLast c s = none ↔ c ∉ s := by
  simp [splitLast, Option.map_eq_none', splitFirst_eq_none_iff]

theorem splitLast_sound {c : Char} {s p q : List Char} :
    splitLast c s = some (p, q) → s = p ++ c :: q ∧ c ∉ q := by
  intro h
  simp only [splitLast, Option.map_eq_some'] at h
  obtain ⟨⟨a, b⟩, hab, hpq⟩ := h
  obtain ⟨hs, hmem⟩ := splitFirst_sound hab
  simp only [Prod.mk.injEq] at hpq
  obtain ⟨hp, hq⟩ := hpq
  subst hp hq
  constructor
  · have := congrArg List.reverse hs
    simpa using this
  · simpa using hmem

theorem splitLast_append {c : Char} (A B : List Char) (h : c ∉ B) :
    splitLast c (A ++ c :: B) = some (A, B) := by
  have hrev : (A ++ c :: B).reverse = B.reverse ++ c :: A.reverse := by
    simp
  have hmem : c ∉ B.reverse := by simpa using h
  simp [splitLast, hrev, splitFirst_append _ _ hmem]

theorem splitOn_no_sep {c : Char} {A : List Char} (h : c ∉ A) :
    splitOn c A = [A] := by
  induction A with
  | nil => rfl
  | cons a A' ih =>
    have ha : ¬ a = c := fun hac => h (hac ▸ List.mem_cons_self a A')
    have h' : c ∉ A' := fun hc => h (List.mem_cons_of_mem a hc)
    simp [splitOn, ha, ih h']

theorem splitOn_append {c : Char} {A B : List Char} (h : c ∉ A) :
    splitOn c (A ++ c :: B) = A :: splitOn c B := by
  induction A with
  | nil => simp [splitOn]
  | cons a A' ih =>
    have ha : ¬ a = c := fun hac => h (hac ▸ List.mem_cons_self a A')
    have h' : c ∉ A' := fun hc => h (List.mem_cons_of_mem a hc)
    simp [splitOn, ha, ih h']

theorem joinSep_cons_flatten {c : Char} (p : List Char) (ps : List (List Char)) :
    joinSep c (p :: ps) = p ++ (ps.map fun q => c :: q).flatten := by
  induction ps generalizing p with
  | nil => simp [joinSep]
  | cons q ps' ih =>
    show p ++ c :: joinSep c (q :: ps') = _
    rw [ih q]
    simp

theorem splitOn_joinSep {c : Char} {ps : List (List Char)}
    (h : ∀ p ∈ ps, c ∉ p) (hne : ps ≠ []) :
    splitOn c (joinSep c ps) = ps := by
  induction ps with
  | nil => exact absurd rfl hne
  | cons p ps' ih =>
    cases ps' with
    | nil => exact splitOn_no_sep (h p (List.mem_cons_self p []))
    | cons q ps'' =>
      show splitOn c (p ++ c :: joinSep c (q :: ps'')) = _
      rw [splitOn_append (h p (List.mem_cons_self p _))]
      rw [ih (fun x hx => h x (List.mem_cons_of_mem p hx)) (by simp)]

theorem joinSep_append_flatten {c : Char} (P Q : List (List Char)) (hP : P ≠ []) :
    joinSep c (P ++ Q) = joinSep c P ++ (Q.map fun q => c :: q).flatten := by
  cases P with
  | nil => exact absurd rfl hP
  | cons p P' =>
    rw [List.cons_append, joinSep_cons_flatten, joinSep_cons_flatten]
    simp

theorem mem_joinSep {c : Char} {ps : List (List Char)} {x : Char}
    (h : x ∈ joinSep c ps) : x = c ∨ ∃ p ∈ ps, x ∈ p := by
  induction ps with
  | nil => simp [joinSep] at h
  | cons p ps' ih =>
    rw [joinSep_cons_flatten] at h
    rcases List.mem_append.mp h with h1 | h1
    · exact Or.inr ⟨p, List.mem_cons_self p ps', h1⟩
    · rcases List.mem_flatten.mp h1 with ⟨l, hl, hx⟩
      rcases List.mem_map.mp hl with ⟨q, hq, rfl⟩
      rcases List.mem_cons.mp hx with h2 | h2
      · exact Or.inl h2
      · exact Or.inr ⟨q, List.mem_cons_of_mem p hq, h2⟩

/-! Soundness lemmas for the combinator parser. -/

theorem nomLiteral_sound {s p r : List Char} :
    nomLiteral s = .ok p r → s = p ++ r ∧ p ≠ [] ∧ noDelims p := by
  intro h
  rw [nomLiteral] at h
  by_cases hp : s.takeWhile (fun c => !(c == ':' || c == ',' || c == '=')) = []
  · rw [if_pos hp] at h
    cases h
  · rw [if_neg hp] at h
    obtain ⟨h1, h2⟩ := NomOut.ok.inj h
    refine ⟨?_, h1 ▸ hp, ?_⟩
    · rw [← h1, ← h2]
      exact (List.takeWhile_append_dropWhile _ _).symm
    · intro c hc
      have := List.mem_takeWhile_imp (h1 ▸ hc)
      simp only [Bool.not_eq_true', Bool.or_eq_false_iff, beq_eq_false_iff_ne] at this
      exact ⟨this.1.1, this.1.2, this.2⟩

theorem nomLiteral_rest_length {s p r : List Char} :
    nomLiteral s = .ok p r → r.length < s.length := by
  intro h
  obtain ⟨hs, hp, -⟩ := nomLiteral_sound h
  rw [hs, List.length_append]
  have : 0 < p.length := List.length_pos.mpr hp
  omega

theorem nomKwarg_sound {s : List Char} {a : Arg} {r : List Char} :
    nomKwarg s = .ok a r → s = a.text ++ r ∧ properArg a := by
  intro h
  rw [nomKwarg] at h
  split at h
  · rename_i k r₁ h1
    obtain ⟨hs1, hk, hdel1⟩ := nomLiteral_sound h1
    split at h
    · rename_i r₂
      split at h
      · rename_i v r₃ h2
        obtain ⟨ha, hr⟩ := NomOut.ok.inj h
        obtain ⟨hs2, hv, hdel2⟩ := nomLiteral_sound h2
        subst ha hr
        refine ⟨?_, hk, hv, hdel1, hdel2⟩
        rw [hs1, hs2, Arg.text]
        simp
      · cases h
      · cases h
    · cases h
  · cases h
  · cases h

theorem nomArgElem_sound {s : List Char} {a : Arg} {r : List Char} :
    nomArgElem s = .ok a r → s = a.text ++ r ∧ properArg a := by
  intro h
  rw [nomArgElem] at h
  cases h1 : nomKwarg s with
  | ok a' r' =>
    rw [h1] at h
    obtain ⟨ha, hr⟩ := NomOut.ok.inj h
    subst ha hr
    exact nomKwarg_sound h1
  | fail e => rw [h1] at h; cases h
  | err e =>
    rw [h1] at h
    cases h2 : nomLiteral s with
    | err e' => rw [h2] at h; cases h
    | fail e' => rw [h2] at h; cases h
    | ok p r' =>
      rw [h2] at h
      obtain ⟨ha, hr⟩ := NomOut.ok.inj h
      subst hr
      obtain ⟨hs, hp, hdel⟩ := nomLiteral_sound h2
      subst ha
      exact ⟨hs, hp, hdel⟩

theorem nomArgElem_rest_length {s : List Char} {a : Arg} {r : List Char} :
    nomArgElem s = .ok a r → r.length < s.length := by
  intro h
  obtain ⟨hs, hproper⟩ := nomArgElem_sound h
  have htext : a.text ≠ [] := by
    cases a with
    | arg x => exact hproper.1
    | kwarg k v =>
      simp [Arg.text]
  have : 0 < a.text.length := List.length_pos.mpr htext
  rw [hs, List.length_append]
  omega

/-! Lemmas about the separated-list loop and the argument partitions. -/

theorem argsLoopF_nil (f : Nat) (acc : List Arg) : argsLoopF f acc [] = (acc, []) := by
  cases f <;> rfl

theorem argsLoopF_succ_comma (f : Nat) (acc : List Arg) (s₁ : List Char) :
    argsLoopF (f + 1) acc (',' :: s₁) =
      (match nomArgElem s₁ with
       | .ok a s₂ => argsLoopF f (acc ++ [a]) s₂
       | _ => (acc, ',' :: s₁)) := rfl

theorem argsLoopF_succ_not_comma (f : Nat) (acc : List Arg) (x : Char)
    (s₁ : List Char) (hx : x ≠ ',') :
    argsLoopF (f + 1) acc (x :: s₁) = (acc, x :: s₁) := by
  show (match x :: s₁ with
    | ',' :: s₁ =>
      (match nomArgElem s₁ with
       | .ok a s₂ => argsLoopF f (acc ++ [a]) s₂
       | _ => (acc, ',' :: s₁))
    | _ => (acc, x :: s₁)) = (acc, x :: s₁)
  split
  · rename_i heq
    obtain ⟨h1, -⟩ := List.cons.inj heq
    exact absurd h1 hx
  · rfl

/-- The fuel argument of `argsLoopF` is irrelevant as long as it is at least
the input length: each iteration consumes at least two characters but a
single unit of fuel. -/
theorem argsLoopF_congr :
    ∀ {f g : Nat} {acc : List Arg} {s : List Char}, s.length ≤ f → s.length ≤ g →
      argsLoopF f acc s = argsLoopF g acc s := by
  intro f
  induction f with
  | zero =>
    intro g acc s hf hg
    have : s = [] := List.length_eq_zero.mp (Nat.le_zero.mp hf)
    subst this
    rw [argsLoopF_nil, argsLoopF_nil]
  | succ f' ih =>
    intro g acc s hf hg
    cases s with
    | nil => rw [argsLoopF_nil, argsLoopF_nil]
    | cons x s₁ =>
      cases g with
      | zero => simp at hg
      | succ g' =>
        by_cases hx : x = ','
        · subst hx
          rw [argsLoopF_succ_comma, argsLoopF_succ_comma]
          cases he : nomArgElem s₁ with
          | ok a s₂ =>
            have hlt : s₂.length < s₁.length := nomArgElem_rest_length he
            have hf' : s₂.length ≤ f' := by
              simp only [List.length_cons] at hf
              omega
            have hg' : s₂.length ≤ g' := by
              simp only [List.length_cons] at hg
              omega
            exact ih hf' hg'
          | err e => rfl
          | fail e => rfl
        · rw [argsLoopF_succ_not_comma _ _ _ _ hx, argsLoopF_succ_not_comma _ _ _ _ hx]

theorem argsLoopF_sound {f : Nat} {acc res : List Arg} {s rest : List Char} :
    argsLoopF f acc s = (res, rest) →
      ∃ es, res = acc ++ es ∧ s = sepText es ++ rest ∧ ∀ e ∈ es, properArg e := by
  induction f generalizing acc s with
  | zero =>
    intro h
    obtain ⟨h1, h2⟩ := Prod.mk.inj h
    exact ⟨[], by simp [h1.symm], by simp [sepText, h2.symm], by simp⟩
  | succ f' ih =>
    intro h
    cases s with
    | nil =>
      obtain ⟨h1, h2⟩ := Prod.mk.inj h
      exact ⟨[], by simp [h1.symm], by simp [sepText, h2.symm], by simp⟩
    | cons x s₁ =>
      by_cases hx : x = ','
      · subst hx
        rw [argsLoopF_succ_comma] at h
        have h' := h
        cases he : nomArgElem s₁ with
        | ok a s₂ =>
          rw [he] at h'
          obtain ⟨es', h1, h2, h3⟩ := ih h'
          obtain ⟨hs₁, hproper⟩ := nomArgElem_sound he
          refine ⟨a :: es', ?_, ?_, ?_⟩
          · rw [h1]
            simp
          · rw [hs₁, h2]
            simp [sepText]
          · intro e hee
            rcases List.mem_cons.mp hee with h4 | h4
            · exact h4 ▸ hproper
            · exact h3 e h4
        | err e =>
          rw [he] at h'
          obtain ⟨h1, h2⟩ := Prod.mk.inj h'
          exact ⟨[], by simp [h1.symm], by simp [sepText, h2.symm], by simp⟩
        | fail e =>
          rw [he] at h'
          obtain ⟨h1, h2⟩ := Prod.mk.inj h'
          exact ⟨[], by simp [h1.symm], by simp [sepText, h2.symm], by simp⟩
      · rw [argsLoopF_succ_not_comma _ _ _ _ hx] at h
        obtain ⟨h1, h2⟩ := Prod.mk.inj h
        exact ⟨[], by simp [h1.symm], by simp [sepText, h2.symm], by simp⟩

theorem argsLoop_sound {acc res : List Arg} {s rest : List Char} :
    argsLoop acc s = (res, rest) →
      ∃ es, res = acc ++ es ∧ s = sepText es ++ rest ∧ ∀ e ∈ es, properArg e :=
  argsLoopF_sound

theorem splitPieces_map_text {l : List Arg} (h : ∀ e ∈ l, properPiece e) :
    splitPieces (l.map Arg.text) = splitargsAux l := by
  induction l with
  | nil => rfl
  | cons e t ih =>
    have ht : ∀ x ∈ t, properPiece x := fun x hx => h x (List.mem_cons_of_mem e hx)
    cases e with
    | arg a =>
      have ha : '=' ∉ a := h (.arg a) (List.mem_cons_self _ _)
      simp only [List.map_cons, Arg.text, splitPieces, splitargsAux,
        splitFirst_eq_none_iff.mpr ha, ih ht]
    | kwarg k v =>
      have hk : '=' ∉ k := h (.kwarg k v) (List.mem_cons_self _ _)
      simp only [List.map_cons, Arg.text, splitPieces, splitargsAux,
        splitFirst_append k v hk, ih ht]

theorem splitargsAux_parts (P : List (List Char)) (K : List (List Char × List Char)) :
    splitargsAux (P.map .arg ++ K.map fun kv => .kwarg kv.1 kv.2) = (P, K) := by
  induction P with
  | nil =>
    induction K with
    | nil => rfl
    | cons kv K' ihK => simp_all [splitargsAux]
  | cons p P' ihP => simp_all [splitargsAux]

/-! Inversion of a successful combinator parse. -/

theorem nomTail_ok_inv {β : Type} {bk bk' : β} {args args' : List Arg}
    {r₄ p : List Char} {anc : Option (List Char)} {rest : List Char} :
    nomTail bk args r₄ = .ok (bk', args', p, anc) rest →
    bk' = bk ∧ args' = args ∧ p = r₄.takeWhile (fun c => !(c == '#')) ∧ p ≠ [] ∧
      ((∃ r₆, r₄.dropWhile (fun c => !(c == '#')) = '#' :: r₆ ∧ anc = some r₆ ∧ rest = [])
        ∨ (r₄.dropWhile (fun c => !(c == '#')) = rest ∧ anc = none)) := by
  intro h
  rw [nomTail] at h
  split at h
  · cases h
  · rename_i hp
    split at h
    · rename_i r₆ hdw
      obtain ⟨h1, h2⟩ := NomOut.ok.inj h
      simp only [Prod.mk.injEq] at h1
      obtain ⟨hbk, hargs, hpp, hanc⟩ := h1
      subst hbk hargs hpp hanc h2
      exact ⟨rfl, rfl, rfl, hp, Or.inl ⟨r₆, hdw, rfl, rfl⟩⟩
    · obtain ⟨h1, h2⟩ := NomOut.ok.inj h
      simp only [Prod.mk.injEq] at h1
      obtain ⟨hbk, hargs, hpp, hanc⟩ := h1
      subst hbk hargs hpp hanc h2
      exact ⟨rfl, rfl, rfl, hp, Or.inr ⟨rfl, rfl⟩⟩

theorem nomSecretPath_ok_inv {β : Type} {tryB : List Char → Option β} {s : List Char}
    {bk : β} {args : List Arg} {p : List Char} {anc : Option (List Char)}
    {rest : List Char} :
    nomSecretPath tryB s = .ok (bk, args, p, anc) rest →
    ∃ r₁ a₀ r₂ r₄,
      s.takeWhile Char.isAlpha ≠ [] ∧
      tryB (s.takeWhile Char.isAlpha) = some bk ∧
      s.dropWhile Char.isAlpha = ':' :: r₁ ∧
      nomArgElem r₁ = .ok a₀ r₂ ∧
      argsLoop [a₀] r₂ = (args, ':' :: r₄) ∧
      p = r₄.takeWhile (fun c => !(c == '#')) ∧ p ≠ [] ∧
      ((∃ r₆, r₄.dropWhile (fun c => !(c == '#')) = '#' :: r₆ ∧ anc = some r₆ ∧ rest = [])
        ∨ (r₄.dropWhile (fun c => !(c == '#')) = rest ∧ anc = none)) := by
  intro h
  rw [nomSecretPath] at h
  split at h
  · cases h
  · rename_i hb
    split at h
    · cases h
    · rename_i bk' htry
      split at h
      · rename_i r₁ hdrop
        split at h
        · rename_i a₀ r₂ helem
          split at h
          · rename_i args' r₄ hloop
            obtain ⟨hbk, hargs, hpp, hpne, hcase⟩ := nomTail_ok_inv h
            subst hbk
            exact ⟨r₁, a₀, r₂, r₄, hb, htry, hdrop, helem, hargs ▸ hloop,
              hpp, hpne, hcase⟩
          · cases h
        · cases h
        · cases h
      · cases h

theorem nomTryFrom_ok_inv {β : Type} {tryB : List Char → Option β} {s : List Char}
    {r : NomResult β} :
    nomTryFrom tryB s = .ok r →
    ∃ args p anc,
      nomSecretPath tryB s = .ok (r.backend, args, p, anc) [] ∧
      r.args = (splitargsAux args).1 ∧
      r.kwargs = (if (splitargsAux args).2 = [] then none
                  else some (splitargsAux args).2) ∧
      r.path = p ∧ r.anchor = anc := by
  intro h
  rw [nomTryFrom] at h
  split at h
  · cases h
  · split at h
    · rename_i bk args p anc rest hsp
      split at h
      · rename_i hrest
        subst hrest
        obtain hr := Except.ok.inj h
        subst hr
        exact ⟨args, p, anc, hsp, rfl, rfl, rfl, rfl⟩
      · cases h
    · cases h
    · cases h

/-! Computation of the scanner on a decomposed input, and delimiter facts. -/

theorem scanTryFrom_build {β : Type} {tryB : List Char → Option β}
    {b A t : List Char} {bk : β}
    (hb : ':' ∉ b) (htry : tryB b = some bk) (hA : ':' ∉ A) (ht : t ≠ []) :
    scanTryFrom tryB (b ++ ':' :: (A ++ ':' :: t))
      = .ok ⟨bk, (splitPieces (splitOn ',' A)).1,
          (if (splitPieces (splitOn ',' A)).2 = [] then none
           else some (splitPieces (splitOn ',' A)).2),
          t,
          (match splitLast '#' t with | some pa => pa.1 | none => t),
          (match splitLast '#' t with | some pa => some pa.2 | none => none)⟩ := by
  simp only [scanTryFrom, splitFirst_append b (A ++ ':' :: t) hb, htry,
    splitFirst_append A t hA, if_neg ht]

theorem properArg_text_delims {e : Arg} (h : properArg e) :
    ':' ∉ e.text ∧ ',' ∉ e.text := by
  cases e with
  | arg a =>
    exact ⟨fun hc => (h.2 ':' hc).1 rfl, fun hc => (h.2 ',' hc).2.1 rfl⟩
  | kwarg k v =>
    obtain ⟨-, -, hk, hv⟩ := h
    constructor
    · intro hc
      rcases List.mem_append.mp hc with h1 | h1
      · exact (hk ':' h1).1 rfl
      · rcases List.mem_cons.mp h1 with h2 | h2
        · exact absurd h2 (by decide)
        · exact (hv ':' h2).1 rfl
    · intro hc
      rcases List.mem_append.mp hc with h1 | h1
      · exact (hk ',' h1).2.1 rfl
      · rcases List.mem_cons.mp h1 with h2 | h2
        · exact absurd h2 (by decide)
        · exact (hv ',' h2).2.1 rfl

theorem properArg_properPiece {e : Arg} (h : properArg e) : properPiece e := by
  cases e with
  | arg a => exact fun hc => (h.2 '=' hc).2.2 rfl
  | kwarg k v => exact fun hc => (h.2.2.1 '=' hc).2.2 rfl

theorem sepText_eq (es : List Arg) :
    sepText es = ((es.map Arg.text).map fun q => ',' :: q).flatten := by
  simp only [sepText, List.map_map]
  rfl

theorem hash_not_mem_takeWhile (r₄ : List Char) :
    '#' ∉ r₄.takeWhile (fun c => !(c == '#')) := by
  intro h
  have := List.mem_takeWhile_imp h
  simp at this

theorem colon_not_mem_takeWhile_alpha (s : List Char) :
    ':' ∉ s.takeWhile Char.isAlpha := by
  intro h
  have := List.mem_takeWhile_imp h
  simp at this

/-- C3 amended: the two strategies do not agree on every input; what holds is
one-directional agreement on accepted inputs.  Every input accepted by the
combinator strategy is also accepted by the scanner with the same backend,
positional arguments and keyword arguments; the path and anchor also coincide
whenever the path/anchor tail carries at most one `#` (the combinator splits
at the first `#`, the scanner at the last).  The scanner accepts strictly
more inputs, and rejected inputs can produce different error kinds. -/
theorem c3_agreement_amended {β : Type} (tryB : List Char → Option β)
    (s : List Char) (r : NomResult β) (h : nomTryFrom tryB s = .ok r) :
    ∃ sp : SecretPath β, scanTryFrom tryB s = .ok sp
      ∧ sp.backend = r.backend ∧ sp.args = r.args ∧ sp.kwargs = r.kwargs
      ∧ (sp.full_path.count '#' ≤ 1 → sp.path = r.path ∧ sp.anchor = r.anchor) := by
  obtain ⟨args, p, anc, hsp, hargsr, hkwr, hpathr, hancr⟩ := nomTryFrom_ok_inv h
  obtain ⟨r₁, a₀, r₂, r₄, hb, htry, hdrop, helem, hloop, hpp, hpne, hcase⟩ :=
    nomSecretPath_ok_inv hsp
  obtain ⟨hr₁, hproper₀⟩ := nomArgElem_sound helem
  obtain ⟨es, hargs, hr₂, hproperes⟩ := argsLoop_sound hloop
  set A := joinSep ',' ((a₀ :: es).map Arg.text) with hA
  have hpieces : ∀ e ∈ a₀ :: es, properArg e := by
    intro e he
    rcases List.mem_cons.mp he with h1 | h1
    · exact h1 ▸ hproper₀
    · exact hproperes e h1
  have hAeq : r₁ = A ++ ':' :: r₄ := by
    rw [hr₁, hr₂, hA, List.map_cons, joinSep_cons_flatten, ← sepText_eq]
    simp
  have hAcolon : ':' ∉ A := by
    intro hc
    rcases mem_joinSep hc with h1 | ⟨q, hq, hcq⟩
    · exact absurd h1 (by decide)
    · rcases List.mem_map.mp hq with ⟨e, he, rfl⟩
      exact (properArg_text_delims (hpieces e he)).1 hcq
  have hAcomma : ∀ q ∈ (a₀ :: es).map Arg.text, ',' ∉ q := by
    intro q hq
    rcases List.mem_map.mp hq with ⟨e, he, rfl⟩
    exact (properArg_text_delims (hpieces e he)).2
  have hr₄ne : r₄ ≠ [] := by
    intro h0
    exact hpne (by rw [hpp, h0]; rfl)
  have hs : s = s.takeWhile Char.isAlpha ++ ':' :: (A ++ ':' :: r₄) := by
    conv_lhs => rw [← List.takeWhile_append_dropWhile Char.isAlpha s]
    rw [hdrop, hAeq]
  have hscan := scanTryFrom_build (colon_not_mem_takeWhile_alpha s) htry hAcolon hr₄ne
  rw [← hs] at hscan
  have hso : splitOn ',' A = (a₀ :: es).map Arg.text :=
    splitOn_joinSep hAcomma (by simp)
  have hsp2 : splitPieces (splitOn ',' A) = splitargsAux (a₀ :: es) := by
    rw [hso, splitPieces_map_text (fun e he => properArg_properPiece (hpieces e he))]
  refine ⟨_, hscan, rfl, ?_, ?_, ?_⟩
  · show (splitPieces (splitOn ',' A)).1 = r.args
    rw [hsp2, hargsr, hargs, List.singleton_append]
  · show (if (splitPieces (splitOn ',' A)).2 = [] then none
        else some (splitPieces (splitOn ',' A)).2) = r.kwargs
    rw [hsp2, hkwr, hargs, List.singleton_append]
  · intro hcount
    have hcount' : r₄.count '#' ≤ 1 := hcount
    rcases hcase with ⟨r₆, hdw, hanc6, -⟩ | ⟨hdw, hancnone⟩
    · have hr₄eq : r₄ = (r₄.takeWhile (fun c => !(c == '#'))) ++ '#' :: r₆ := by
        conv_lhs => rw [← List.takeWhile_append_dropWhile (fun c => !(c == '#')) r₄]
        rw [hdw]
      have hp0 : '#' ∉ r₄.takeWhile (fun c => !(c == '#')) := hash_not_mem_takeWhile r₄
      have h6 : '#' ∉ r₆ := by
        rw [hr₄eq] at hcount'
        simp only [List.count_append, List.count_cons] at hcount'
        rw [List.count_eq_zero.mpr hp0] at hcount'
        apply List.count_eq_zero.mp
        simp at hcount'
        omega
      have hsl : splitLast '#' r₄ = some (r₄.takeWhile (fun c => !(c == '#')), r₆) := by
        conv_lhs => rw [hr₄eq]
        exact splitLast_append _ _ h6
      constructor
      · show (match splitLast '#' r₄ with | some pa => pa.1 | none => r₄) = r.path
        rw [hsl, hpathr, hpp]
      · show (match splitLast '#' r₄ with | some pa => some pa.2 | none => none) = r.anchor
        rw [hsl, hancr, hanc6]
    · have hr₄p : r₄ = r₄.takeWhile (fun c => !(c == '#')) := by
        conv_lhs => rw [← List.takeWhile_append_dropWhile (fun c => !(c == '#')) r₄]
        rw [hdw]
        simp
      have hsl : splitLast '#' r₄ = none := by
        apply splitLast_eq_none_iff.mpr
        rw [hr₄p]
        exact hash_not_mem_takeWhile r₄
      constructor
      · show (match splitLast '#' r₄ with | some pa => pa.1 | none => r₄) = r.path
        rw [hsl, hpathr, hpp, ← hr₄p]
      · show (match splitLast '#' r₄ with | some pa => some pa.2 | none => none) = r.anchor
        rw [hsl, hancr, hancnone]

theorem scanTryFrom_ok_inv {β : Type} {tryB : List Char → Option β}
    {s : List Char} {sp : SecretPath β} :
    scanTryFrom tryB s = .ok sp →
    ∃ b r₁ args_,
      splitFirst ':' s = some (b, r₁) ∧ tryB b = some sp.backend ∧
      splitFirst ':' r₁ = some (args_, sp.full_path) ∧ sp.full_path ≠ [] ∧
      sp.args = (splitPieces (splitOn ',' args_)).1 ∧
      sp.kwargs = (if (splitPieces (splitOn ',' args_)).2 = [] then none
                   else some (splitPieces (splitOn ',' args_)).2) ∧
      sp.path = (match splitLast '#' sp.full_path with
                 | some pa => pa.1
                 | none => sp.full_path) ∧
      sp.anchor = (match splitLast '#' sp.full_path with
                   | some pa => some pa.2
                   | none => none) := by
  intro h
  rw [scanTryFrom] at h
  split at h
  · cases h
  · rename_i b r₁ hsf1
    split at h
    · cases h
    · rename_i bk htry
      split at h
      · cases h
      · rename_i args_ pa hsf2
        split at h
        · cases h
        · rename_i hpane
          obtain hspv := Except.ok.inj h
          subst hspv
          exact ⟨b, r₁, args_, hsf1, htry, hsf2, hpane, rfl, rfl, rfl, rfl⟩

/-- C4 amended: the two strategies split the tail at different occurrences of
`#`.  The scanner splits at the LAST `#`: on an accepted input, an absent
anchor means the tail holds no `#` at all, and a present anchor `a` means the
tail is `path ++ "#" ++ a` with `a` itself `#`-free (so a trailing `#` gives
`Some ""`).  The combinator strategy instead splits at the FIRST `#`: its
path never contains `#`, so on a tail with two or more `#` the two results
differ. -/
theorem c4_anchor_amended (β : Type) :
    (∀ (tryB : List Char → Option β) (s : List Char) (sp : SecretPath β),
      scanTryFrom tryB s = .ok sp →
      (sp.anchor = none → sp.path = sp.full_path ∧ '#' ∉ sp.full_path)
      ∧ (∀ a, sp.anchor = some a → sp.full_path = sp.path ++ '#' :: a ∧ '#' ∉ a))
    ∧ (∀ (tryB : List Char → Option β) (s : List Char) (r : NomResult β),
      nomTryFrom tryB s = .ok r → '#' ∉ r.path) := by
  constructor
  · intro tryB s sp h
    obtain ⟨b, r₁, args_, -, -, -, -, -, -, hpath, hanchor⟩ := scanTryFrom_ok_inv h
    cases hsl : splitLast '#' sp.full_path with
    | none =>
      rw [hsl] at hpath hanchor
      constructor
      · intro _
        exact ⟨hpath, splitLast_eq_none_iff.mp hsl⟩
      · intro a ha
        rw [hanchor] at ha
        cases ha
    | some pa =>
      rw [hsl] at hpath hanchor
      obtain ⟨hfull, hmem⟩ := splitLast_sound hsl
      constructor
      · intro hnone
        rw [hanchor] at hnone
        cases hnone
      · intro a ha
        rw [hanchor] at ha
        obtain haa := Option.some.inj ha
        subst haa
        exact ⟨by rw [hpath]; exact hfull, hmem⟩
  · intro tryB s r h
    obtain ⟨args, p, anc, hsp, -, -, hpath, -⟩ := nomTryFrom_ok_inv h
    obtain ⟨r₁, a₀, r₂, r₄, -, -, -, -, -, hpp, -, -⟩ := nomSecretPath_ok_inv hsp
    rw [hpath, hpp]
    exact hash_not_mem_takeWhile r₄

/-- Witness for `c4_anchor_amended`: the scanner on
`const:str:x#y#` (anchor `Some ""`, i.e. a trailing `#`) and the combinator
on `vault:a:b#c#d` (its `#`-free path is `b`). -/
theorem c4_anchor_amended_witness :
    ("x#y#".toList = "x#y".toList ++ '#' :: ([] : List Char) ∧ '#' ∉ ([] : List Char))
    ∧ '#' ∉ "b".toList :=
  ⟨((c4_anchor_amended Backend).1 Backend.try_from "const:str:x#y#".toList
      ⟨.const, ["str".toList], none, "x#y#".toList, "x#y".toList, some []⟩
      (by decide)).2 [] rfl,
    (c4_anchor_amended Backend).2 Backend.try_from "vault:a:b#c#d".toList
      ⟨.vault, [['a']], none, "b".toList, some "c#d".toList⟩ (by decide)⟩

/-- C4 counterexample: the claim says both strategies split the tail at the
LAST `#`, but on `vault:a:b#c#d` the combinator strategy returns anchor
`c#d` — everything after the FIRST `#` — not `d`. -/
theorem c4_anchor_counterexample :
    nomTryFrom Backend.try_from "vault:a:b#c#d".toList
      = .ok ⟨.vault, [['a']], none, "b".toList, some "c#d".toList⟩
    ∧ some "c#d".toList ≠ some "d".toList := by
  exact ⟨by decide, by decide⟩

/-- C7 amended: the empty input fails with `NoBackend` under both strategies,
but on a non-empty input holding no `:` the strategies disagree on the error
kind.  The scanner's iterator finds no `:` for its very first (backend) slice
and reports `NoBackend` for EVERY colon-free input; the combinator reports
`NoArgs` — as the claim says — only after an accepted alphabetic backend
prefix (other colon-free inputs produce alpha-kind or backend errors). -/
theorem c7_error_kind_amended {β : Type} (tryB : List Char → Option β) :
    (∀ s : List Char, ':' ∉ s → scanTryFrom tryB s = .error .NoBackend)
    ∧ nomTryFrom tryB [] = .error .NoBackend
    ∧ (∀ (s : List Char) (bk : β), s ≠ [] → ':' ∉ s →
        s.takeWhile Char.isAlpha ≠ [] →
        tryB (s.takeWhile Char.isAlpha) = some bk →
        nomTryFrom tryB s = .error (.NoArgs (s.dropWhile Char.isAlpha))) := by
  refine ⟨?_, by rw [nomTryFrom]; simp, ?_⟩
  · intro s hcolon
    rw [scanTryFrom, splitFirst_eq_none_iff.mpr hcolon]
  · intro s bk hne hcolon hb htry
    have hsp : nomSecretPath tryB s = .fail (.NoArgs (s.dropWhile Char.isAlpha)) := by
      rw [nomSecretPath, if_neg hb]
      split
      · rename_i hnone
        rw [htry] at hnone
        cases hnone
      · rename_i bk' htry'
        cases hd : s.dropWhile Char.isAlpha with
        | nil => rfl
        | cons x xs =>
          have hxmem : x ∈ s :=
            (List.dropWhile_sublist Char.isAlpha).mem (hd ▸ List.mem_cons_self x xs)
          have hx : x ≠ ':' := fun he => hcolon (he ▸ hxmem)
          split
          · rename_i r₁ heq
            obtain ⟨h1, -⟩ := List.cons.inj heq
            exact absurd h1 hx
          · rfl
    rw [nomTryFrom, if_neg hne, hsp]

/-- Witness for `c7_error_kind_amended`: the colon-free inputs `vault`
(scanner: `NoBackend`; combinator: `NoArgs ""`) and the empty input. -/
theorem c7_error_kind_amended_witness :
    scanTryFrom Backend.try_from "vault".toList = .error .NoBackend
    ∧ nomTryFrom Backend.try_from [] = .error .NoBackend
    ∧ nomTryFrom Backend.try_from "vault".toList
        = .error (.NoArgs ("vault".toList.dropWhile Char.isAlpha)) :=
  ⟨(c7_error_kind_amended Backend.try_from).1 "vault".toList (by decide),
   (c7_error_kind_amended Backend.try_from).2.1,
   (c7_error_kind_amended Backend.try_from).2.2 "vault".toList .vault
     (by decide) (by decide) (by decide) (by decide)⟩

/-- C7 counterexample: the claim says a non-empty colon-free input fails with
`NoArgs` under both strategies, but the scanner fails with `NoBackend` on
`vault` (its iterator yields no backend slice when no `:` exists). -/
theorem c7_error_kind_counterexample :
    scanTryFrom Backend.try_from "vault".toList = .error .NoBackend
    ∧ (match scanTryFrom Backend.try_from "vault".toList with
       | .error (.NoArgs _) => False
       | _ => True) := by
  exact ⟨by decide, by trivial⟩

/-- C2 amended: `Display` writes all positional arguments first and all
keyword arguments after them, so the round-trip law holds exactly for
accepted inputs whose argument section lists every keyword argument after
every positional argument AND has at least one positional argument (and whose
backend displays back to its source slice).  Inputs with interleaved keyword
arguments, or with only keyword arguments, re-serialize differently. -/
theorem c2_roundtrip_amended {β : Type} (tryB : List Char → Option β)
    (showB : β → List Char) (b t : List Char) (P : List (List Char))
    (K : List (List Char × List Char)) (bk : β) (s : List Char)
    (hs : s = b ++ ':' :: (joinSep ',' (P ++ K.map fun kv => kv.1 ++ '=' :: kv.2)
      ++ ':' :: t))
    (hb : ':' ∉ b) (htry : tryB b = some bk) (hshow : showB bk = b)
    (hP : P ≠ []) (hPp : ∀ p ∈ P, ':' ∉ p ∧ ',' ∉ p ∧ '=' ∉ p)
    (hK : ∀ kv ∈ K, ':' ∉ kv.1 ∧ ',' ∉ kv.1 ∧ '=' ∉ kv.1 ∧ ':' ∉ kv.2 ∧ ',' ∉ kv.2)
    (ht : t ≠ []) :
    ∃ sp : SecretPath β, scanTryFrom tryB s = .ok sp ∧ sp.display showB = s := by
  subst hs
  have hpiece : ∀ q ∈ P ++ K.map (fun kv => kv.1 ++ '=' :: kv.2),
      ':' ∉ q ∧ ',' ∉ q := by
    intro q hq
    rcases List.mem_append.mp hq with h1 | h1
    · exact ⟨(hPp q h1).1, (hPp q h1).2.1⟩
    · rcases List.mem_map.mp h1 with ⟨kv, hkv, rfl⟩
      obtain ⟨hk1, hk2, -, hv1, hv2⟩ := hK kv hkv
      constructor
      · intro hc
        rcases List.mem_append.mp hc with h2 | h2
        · exact hk1 h2
        · rcases List.mem_cons.mp h2 with h3 | h3
          · exact absurd h3 (by decide)
          · exact hv1 h3
      · intro hc
        rcases List.mem_append.mp hc with h2 | h2
        · exact hk2 h2
        · rcases List.mem_cons.mp h2 with h3 | h3
          · exact absurd h3 (by decide)
          · exact hv2 h3
  have hAcolon : ':' ∉ joinSep ',' (P ++ K.map fun kv => kv.1 ++ '=' :: kv.2) := by
    intro hc
    rcases mem_joinSep hc with h1 | ⟨q, hq, hcq⟩
    · exact absurd h1 (by decide)
    · exact (hpiece q hq).1 hcq
  have hscan := scanTryFrom_build hb htry hAcolon ht
  have hso : splitOn ',' (joinSep ',' (P ++ K.map fun kv => kv.1 ++ '=' :: kv.2))
      = P ++ K.map (fun kv => kv.1 ++ '=' :: kv.2) :=
    splitOn_joinSep (fun q hq => (hpiece q hq).2) (by simp [hP])
  have hmap : P ++ K.map (fun kv => kv.1 ++ '=' :: kv.2)
      = (P.map Arg.arg ++ K.map fun kv => Arg.kwarg kv.1 kv.2).map Arg.text := by
    simp [List.map_map, Function.comp_def, Arg.text]
  have hprop : ∀ e ∈ P.map Arg.arg ++ K.map fun kv => Arg.kwarg kv.1 kv.2,
      properPiece e := by
    intro e he
    rcases List.mem_append.mp he with h1 | h1
    · rcases List.mem_map.mp h1 with ⟨q, hq, rfl⟩
      exact (hPp q hq).2.2
    · rcases List.mem_map.mp h1 with ⟨kv, hkv, rfl⟩
      exact (hK kv hkv).2.2.1
  have hpieces : splitPieces (splitOn ','
      (joinSep ',' (P ++ K.map fun kv => kv.1 ++ '=' :: kv.2))) = (P, K) := by
    rw [hso, hmap, splitPieces_map_text hprop, splitargsAux_parts]
  refine ⟨_, hscan, ?_⟩
  simp only [SecretPath.display, hpieces, hshow]
  cases K with
  | nil => simp
  | cons kv K' =>
    rw [joinSep_append_flatten _ _ hP]
    simp [List.map_map, Function.comp_def]

/-- Witness for `c2_roundtrip_amended` on `vault:a,k=v:p#q`. -/
theorem c2_roundtrip_amended_witness :
    ∃ sp : SecretPath Backend,
      scanTryFrom Backend.try_from "vault:a,k=v:p#q".toList = .ok sp
      ∧ sp.display Backend.display = "vault:a,k=v:p#q".toList :=
  c2_roundtrip_amended Backend.try_from Backend.display "vault".toList
    "p#q".toList [['a']] [(['k'], ['v'])] .vault "vault:a,k=v:p#q".toList
    (by decide) (by decide) (by decide) (by decide) (by decide)
    (by decide) (by decide) (by decide)

/-- C2 counterexample: the claim says Display is a left inverse of the parser
on every accepted input, including interleaved keyword arguments; but the
accepted input `vault:a,k=v,b:p` re-serializes as `vault:a,b,k=v:p`. -/
theorem c2_roundtrip_counterexample :
    (scanTryFrom Backend.try_from "vault:a,k=v,b:p".toList).toOption.map
        (fun sp => sp.display Backend.display)
      = some "vault:a,b,k=v:p".toList
    ∧ "vault:a,b,k=v:p".toList ≠ "vault:a,k=v,b:p".toList := by
  exact ⟨by decide, by decide⟩

/-- Witness for `c3_agreement_amended` on `vault:a,k=v:x#y` (a tail with one
`#`, so path and anchor agree as well). -/
theorem c3_agreement_amended_witness :
    ∃ sp : SecretPath Backend,
      scanTryFrom Backend.try_from "vault:a,k=v:x#y".toList = .ok sp
      ∧ sp.backend = Backend.vault ∧ sp.args = [['a']]
      ∧ sp.kwargs = some [(['k'], ['v'])]
      ∧ (sp.full_path.count '#' ≤ 1 → sp.path = ['x'] ∧ sp.anchor = some ['y']) :=
  c3_agreement_amended Backend.try_from "vault:a,k=v:x#y".toList
    ⟨Backend.vault, [['a']], some [(['k'], ['v'])], ['x'], some ['y']⟩ (by decide)

/-- C3 counterexample: the claim says the strategies accept with the SAME
structural result; on `vault:a:b#c#d` both accept but the combinator returns
`(path, anchor) = (b, c#d)` while the scanner returns `(b#c, d)`. -/
theorem c3_agreement_counterexample :
    nomTryFrom Backend.try_from "vault:a:b#c#d".toList
      = .ok ⟨.vault, [['a']], none, "b".toList, some "c#d".toList⟩
    ∧ scanTryFrom Backend.try_from "vault:a:b#c#d".toList
      = .ok ⟨.vault, [['a']], none, "b#c#d".toList, "b#c".toList, some "d".toList⟩
    ∧ ("b".toList, some "c#d".toList) ≠ ("b#c".toList, some "d".toList) := by
  exact ⟨by decide, by decide, by decide⟩

end VaultJwt
